import Mathlib

/-!
Verification of the duplicate-device reporting core of
`watchman_duplicate_check.py`.

The development shallowly embeds the three core routines of the script —
`DuplicateReporter.parse_last_report`, `DuplicateReporter.find_duplicates`,
`DuplicateReporter.identify_devices_to_remove` — together with the parts of
`DuplicateReporter.generate_report` that the claims are about, and the
pieces of the Python standard library they call
(`str.replace`/`str.strip`/`str.lower`/`str.split`, slicing,
`datetime.strptime` with the fixed pattern `%Y-%m-%d %H:%M:%S`,
`datetime.fromtimestamp`, `float(str)`, and stable `list.sort` with a key
and `reverse=True`).

Conventions of the embedding:
* Python strings are Lean `String`s (lists of characters); only ASCII
  whitespace is modelled for `str.strip`, matching the data that can occur
  in the fields involved.
* A Python `datetime` is represented by the integer number of microseconds
  from `datetime.min` (`0001-01-01 00:00:00`) to it; `datetime` ordering is
  integer ordering, `datetime.min` is `0`.  The conversion from a calendar
  date follows CPython's `datetime._ymd2ord`.
* `datetime.fromtimestamp` applies a fixed local-timezone offset `tz`
  (in seconds); every definition of the pipeline is parametrised by `tz`.
  CPython raises `OverflowError` when the epoch value does not fit in the
  platform's 64-bit `time_t`, and `ValueError` when the resulting year is
  outside `1..9999`; both behaviours are modelled (failures of the platform
  `localtime` for extreme but representable inputs are folded into the
  `ValueError` case).
* Exceptions are an explicit `Except` layer: `.ok (some d)` is a parsed
  datetime, `.ok none` is Python `None` ("Unknown"), `.error e` is an
  exception escaping the function.
* Python `float(string)` is modelled exactly as a sign/mantissa/power-of-ten
  triple (no binary rounding; numeric-underscore separators are not
  modelled); no claim depends on float rounding.
* Python's `list.sort(key=..., reverse=True)` is a stable descending sort,
  which determines the output list uniquely; it is modelled by a stable
  insertion sort with the same specification.
-/

namespace Watchman

/-! ## Character-level helpers (models of Python `str` methods) -/

/-- Value of an ASCII digit character. -/
def digitVal (c : Char) : Nat := c.toNat - 48

/-- Model of `s.replace(c, '')`: remove every occurrence of the character. -/
def removeChar (c : Char) (s : String) : String := ⟨s.data.filter (fun x => x ≠ c)⟩

/-- Model of `s.replace(a, b)` for single characters. -/
def replaceChar (a b : Char) (s : String) : String :=
  ⟨s.data.map (fun x => if x = a then b else x)⟩

/-- Model of `s.lower()` (ASCII). -/
def pyLower (s : String) : String := ⟨s.data.map Char.toLower⟩

/-- Remove trailing whitespace from a character list. -/
def dropTrailingWs : List Char → List Char
  | [] => []
  | c :: rest =>
    match dropTrailingWs rest with
    | [] => if c.isWhitespace then [] else [c]
    | x :: xs => c :: x :: xs

/-- Strip leading and trailing whitespace from a character list. -/
def trimList (l : List Char) : List Char :=
  dropTrailingWs (l.dropWhile Char.isWhitespace)

/-- Model of `s.strip()` (ASCII whitespace). -/
def pyStrip (s : String) : String := ⟨trimList s.data⟩

/-- Model of `s.split(c)[0]`: the prefix before the first occurrence of `c`
(the whole string when `c` does not occur). -/
def splitHead (c : Char) (s : String) : String :=
  ⟨s.data.takeWhile (fun x => x ≠ c)⟩

/-- Model of the slice `s[-n:]`: the final `n` characters (the whole string
when it is shorter). -/
def lastN (n : Nat) (s : String) : String := ⟨s.data.drop (s.data.length - n)⟩

/-- Model of the Python test `c in s` for a single character `c`. -/
def containsChar (s : String) (c : Char) : Bool := s.data.any (fun x => x = c)

/-! ## Calendar arithmetic (model of CPython `datetime`) -/

/-- Model of `datetime`'s leap-year test. -/
def isLeap (y : Nat) : Bool := y % 4 == 0 && (y % 100 != 0 || y % 400 == 0)

/-- Model of `datetime._DAYS_IN_MONTH` adjusted for leap years. -/
def daysInMonth (y m : Nat) : Nat :=
  if m = 2 then (if isLeap y then 29 else 28)
  else if m = 4 ∨ m = 6 ∨ m = 9 ∨ m = 11 then 30
  else 31

/-- Model of `datetime._days_before_month`. -/
def daysBeforeMonth (y m : Nat) : Nat :=
  (List.range m).foldl (fun acc k => if 1 ≤ k then acc + daysInMonth y k else acc) 0

/-- Model of `datetime._days_before_year`: days from 0001-01-01 to the first
day of year `y`. -/
def daysBeforeYear (y : Nat) : Nat :=
  (y - 1) * 365 + (y - 1) / 4 - (y - 1) / 100 + (y - 1) / 400

/-- Microseconds from `datetime.min` to the datetime
`y-m-d h:mi:s` (no fractional part). -/
def civilMicro (y m d h mi s : Nat) : Nat :=
  ((daysBeforeYear y + daysBeforeMonth y m + (d - 1)) * 86400
    + h * 3600 + mi * 60 + s) * 1000000

/-- The representation of `datetime.min`. -/
def dtMin : Int := 0

/-- Microseconds from `datetime.min` to the Unix epoch `1970-01-01 00:00:00`
(719162 days). -/
def epochMicro : Int := 62135596800000000

/-- Microseconds from `datetime.min` to `10000-01-01 00:00:00`; datetimes are
exactly the values in `[0, dtMaxMicro)`. -/
def dtMaxMicro : Int := 315537897600000000

/-! ## Model of `datetime.strptime(s, '%Y-%m-%d %H:%M:%S')`

CPython's `_strptime` compiles the pattern to a regular expression:
`%Y` is exactly four digits, `%m`/`%d`/`%H`/`%M`/`%S` are one or two digits
restricted to the field's range, a literal space matches one or more
whitespace characters, and the whole string must be consumed.  The
resulting `datetime` constructor additionally validates the day against the
month length and the year against `MINYEAR = 1` (the `%S` values 60 and 61
accepted by the regex are rejected by the constructor; both rejections are
`ValueError`s, modelled uniformly as `none`). -/

/-- Read exactly four digits (the `%Y` field). -/
def read4Digits : List Char → Option (Nat × List Char)
  | a :: b :: c :: d :: rest =>
    if a.isDigit && b.isDigit && c.isDigit && d.isDigit then
      some (1000 * digitVal a + 100 * digitVal b + 10 * digitVal c + digitVal d, rest)
    else none
  | _ => none

/-- Read a one- or two-digit field whose value must lie in `[lo, hi]`,
preferring the two-digit reading exactly as the compiled regular expression
does. -/
def readField (lo hi : Nat) : List Char → Option (Nat × List Char)
  | a :: b :: rest =>
    if a.isDigit then
      if b.isDigit then
        let v2 := 10 * digitVal a + digitVal b
        if lo ≤ v2 ∧ v2 ≤ hi then some (v2, rest)
        else if lo ≤ digitVal a ∧ digitVal a ≤ hi then some (digitVal a, b :: rest)
        else none
      else if lo ≤ digitVal a ∧ digitVal a ≤ hi then some (digitVal a, b :: rest)
      else none
    else none
  | [a] => if a.isDigit ∧ lo ≤ digitVal a ∧ digitVal a ≤ hi then some (digitVal a, []) else none
  | [] => none

/-- Consume one expected literal character. -/
def expectChar (c : Char) : List Char → Option (List Char)
  | x :: rest => if x = c then some rest else none
  | [] => none

/-- Consume one or more whitespace characters (a literal space in the
pattern). -/
def skipWs1 : List Char → Option (List Char)
  | x :: rest => if x.isWhitespace then some (rest.dropWhile Char.isWhitespace) else none
  | [] => none

/-- Model of `datetime.strptime(s, '%Y-%m-%d %H:%M:%S')`: the parsed
datetime in microseconds since `datetime.min`, or `none` for the
`ValueError` that `parse_last_report` catches. -/
def strptimeYmdHms (s : String) : Option Int := do
  let (y, r1) ← read4Digits s.data
  let r2 ← expectChar '-' r1
  let (m, r3) ← readField 1 12 r2
  let r4 ← expectChar '-' r3
  let (d, r5) ← readField 1 31 r4
  let r6 ← skipWs1 r5
  let (hh, r7) ← readField 0 23 r6
  let r8 ← expectChar ':' r7
  let (mi, r9) ← readField 0 59 r8
  let r10 ← expectChar ':' r9
  let (ss, r11) ← readField 0 59 r10
  if r11 = [] ∧ 1 ≤ y ∧ d ≤ daysInMonth y m then
    some ((civilMicro y m d hh mi ss : Nat) : Int)
  else none

/-! ## Model of `float(string)` -/

/-- The result of a successful Python `float(...)` conversion, kept exact:
`finite m e` denotes the value `m * 10 ^ e`.  (CPython rounds to an IEEE-754
double; no claim depends on that rounding.  Overflowing decimal literals
such as `1e400` become infinities in CPython through the same `strtod`
path as here the huge `finite` value: both make `fromtimestamp` raise
`OverflowError`.) -/
inductive PyFloat where
  | nan : PyFloat
  | inf : Bool → PyFloat
  | finite : Int → Int → PyFloat
deriving DecidableEq

/-- Read a maximal run of digits: value, number of digits, rest. -/
def readDigitsAux : List Char → Nat → Nat → Nat × Nat × List Char
  | c :: rest, acc, cnt =>
    if c.isDigit then readDigitsAux rest (10 * acc + digitVal c) (cnt + 1)
    else (acc, cnt, c :: rest)
  | [], acc, cnt => (acc, cnt, [])

/-- Model of Python `float(s)` (`ValueError` is `none`): optional
whitespace, optional sign, then `inf`/`infinity`/`nan` (case-insensitive) or
a decimal literal with optional fraction and exponent.  Numeric-underscore
separators are not modelled. -/
def floatOfString (s : String) : Option PyFloat :=
  let l := trimList s.data
  let signed : Bool × List Char :=
    match l with
    | '+' :: r => (false, r)
    | '-' :: r => (true, r)
    | r => (false, r)
  let neg := signed.1
  let l1 := signed.2
  let low := l1.map Char.toLower
  if low = "inf".data ∨ low = "infinity".data then some (.inf neg)
  else if low = "nan".data then some .nan
  else
    let ipart := readDigitsAux l1 0 0
    let fpart : Nat × Nat × List Char :=
      match ipart.2.2 with
      | '.' :: r => readDigitsAux r 0 0
      | r => (0, 0, r)
    if ipart.2.1 + fpart.2.1 = 0 then none
    else
      let mag : Int := ((ipart.1 * 10 ^ fpart.2.1 + fpart.1 : Nat) : Int)
      let mant : Int := if neg then -mag else mag
      match fpart.2.2 with
      | [] => some (.finite mant (-(fpart.2.1 : Int)))
      | 'e' :: r | 'E' :: r =>
        let esigned : Bool × List Char :=
          match r with
          | '+' :: rr => (false, rr)
          | '-' :: rr => (true, rr)
          | rr => (false, rr)
        let epart := readDigitsAux esigned.2 0 0
        if epart.2.1 = 0 ∨ epart.2.2 ≠ [] then none
        else
          let ev : Int := if esigned.1 then -(epart.1 : Int) else (epart.1 : Int)
          some (.finite mant (ev - (fpart.2.1 : Int)))
      | _ => none

/-! ## Model of `datetime.fromtimestamp` -/

/-- The exceptions relevant to `parse_last_report`: the handler
`except (ValueError, TypeError)` catches `ValueError` (`TypeError` cannot
arise for a `None`/`int`/`str` input) but not `OverflowError`. -/
inductive PyErr where
  | valueError : PyErr
  | overflowError : PyErr
deriving DecidableEq

/-- Multiply by a (possibly negative) power of ten, flooring:
`⌊m * 10 ^ e⌋`. -/
def mulPow10Floor (m : Int) (e : Int) : Int :=
  if 0 ≤ e then m * 10 ^ e.toNat else Int.fdiv m (10 ^ (-e).toNat)

/-- Convert an epoch value (in microseconds) to a local naive datetime:
apply the local offset `tz` (seconds) and check the `datetime` year range,
raising `ValueError` outside it (CPython raises `ValueError` for years
outside `1..9999`; `OSError` from extreme `localtime` arguments is folded
into this caught case). -/
def localizeMicro (tz : Int) (microSinceEpoch : Int) : Except PyErr Int :=
  let dt := epochMicro + tz * 1000000 + microSinceEpoch
  if 0 ≤ dt ∧ dt < dtMaxMicro then .ok dt else .error .valueError

/-- Model of `datetime.fromtimestamp(n)` for an `int` argument: CPython
first converts to the platform 64-bit `time_t`, raising `OverflowError`
when the value does not fit. -/
def fromtimestampInt (tz : Int) (n : Int) : Except PyErr Int :=
  if n < -(2 ^ 63) ∨ (2 ^ 63) ≤ n then .error .overflowError
  else localizeMicro tz (n * 1000000)

/-- Model of `datetime.fromtimestamp(x)` for a `float` argument:
`nan` raises `ValueError` (caught), infinities and values outside the
64-bit `time_t` range raise `OverflowError` (uncaught). -/
def fromtimestampFloat (tz : Int) : PyFloat → Except PyErr Int
  | .nan => .error .valueError
  | .inf _ => .error .overflowError
  | .finite m e =>
    let micro := mulPow10Floor m (e + 6)
    if micro < -(2 ^ 63) * 1000000 ∨ (2 ^ 63) * 1000000 ≤ micro then .error .overflowError
    else localizeMicro tz micro

/-! ## `DuplicateReporter.parse_last_report` -/

/-- The runtime value found under the key `'last_report'` of a device
record: JSON `null` (or a missing key), an integer, or a string. -/
inductive PyVal where
  | none : PyVal
  | int : Int → PyVal
  | str : String → PyVal
deriving DecidableEq

/-- Model of `DuplicateReporter.parse_last_report` (lines 128-150):
`.ok (some d)` is a parsed `datetime`, `.ok none` is Python `None`
("Unknown"), `.error e` is an exception escaping the function.  The initial
`if not last_report` makes `None`, `0` and `''` all return `None`; inside
the `try`, an `int` goes through `fromtimestamp`, a string containing `'T'`
is cleaned (`split('.')[0]`, `'T'` → `' '`, and when a `'+'` occurs
anywhere or a `'-'` occurs in the last six characters, truncation at the
first `'+'` and then at the first `'-'`) and given to `strptime`, and any
other string goes through `float` and `fromtimestamp`;
`except (ValueError, TypeError)` turns those two exceptions into `None`. -/
def parse_last_report (tz : Int) : PyVal → Except PyErr (Option Int)
  | .none => .ok Option.none
  | .int n =>
    if n = 0 then .ok Option.none
    else
      match fromtimestampInt tz n with
      | .ok d => .ok (some d)
      | .error .valueError => .ok Option.none
      | .error .overflowError => .error .overflowError
  | .str s =>
    if s = "" then .ok Option.none
    else if containsChar s 'T' then
      let clean0 := replaceChar 'T' ' ' (splitHead '.' s)
      let clean :=
        if containsChar clean0 '+' || containsChar (lastN 6 clean0) '-' then
          splitHead '-' (splitHead '+' clean0)
        else clean0
      match strptimeYmdHms clean with
      | some d => .ok (some d)
      | Option.none => .ok Option.none
    else
      match floatOfString s with
      | Option.none => .ok Option.none
      | some f =>
        match fromtimestampFloat tz f with
        | .ok d => .ok (some d)
        | .error .valueError => .ok Option.none
        | .error .overflowError => .error .overflowError

/-! ## `DuplicateReporter.find_duplicates` -/

/-- A device record, with the two fields the core interprets and an opaque
tag standing for all pass-through fields (name, client id, serial, ...). -/
structure Computer where
  system_mac_address : Option String
  last_report : PyVal
  payload : Nat
deriving DecidableEq

/-- Normalisation of a MAC address (line 164): remove `':'`, remove `'-'`,
lowercase, strip surrounding whitespace. -/
def normalizeMac (s : String) : String :=
  pyStrip (pyLower (removeChar '-' (removeChar ':' s)))

/-- The two skip tests of lines 160 and 167 applied to a raw string:
`some key` when the record is grouped under `key`, `none` when it is
skipped (falsy or whitespace-only raw value, or normalised length ≠ 12). -/
def validMac (s : String) : Option String :=
  if s = "" then Option.none
  else if pyStrip s = "" then Option.none
  else
    let n := normalizeMac s
    if n.length = 12 then some n else Option.none

/-- The grouping key of a record: `computer.get('system_mac_address')`
followed by the skip tests. -/
def macKey (c : Computer) : Option String :=
  match c.system_mac_address with
  | Option.none => Option.none
  | some s => validMac s

/-- Model of `mac_groups[normalized_mac].append(computer)` on an
insertion-ordered association list (Python dicts preserve insertion
order). -/
def addToGroups : List (String × List Computer) → String → Computer →
    List (String × List Computer)
  | [], m, c => [(m, [c])]
  | (k, cs) :: rest, m, c =>
    if k = m then (k, cs ++ [c]) :: rest else (k, cs) :: addToGroups rest m c

/-- The accumulation loop of lines 156-170. -/
def buildGroups (computers : List Computer) : List (String × List Computer) :=
  computers.foldl
    (fun gs c =>
      match macKey c with
      | Option.none => gs
      | some m => addToGroups gs m c)
    []

/-- Model of `DuplicateReporter.find_duplicates` (lines 152-175): group by
normalised MAC, keep only the groups with more than one member. -/
def find_duplicates (computers : List Computer) : List (String × List Computer) :=
  (buildGroups computers).filter (fun p => decide (1 < p.2.length))

/-! ## `DuplicateReporter.identify_devices_to_remove` -/

/-- The sort key of line 194: the parsed date, with `None` replaced by
`datetime.min`. -/
def sortKey (p : Computer × Option Int) : Int := p.2.getD dtMin

/-- Insert an element into a descending-sorted list of later-input
elements, after every element with a strictly greater key and before the
first element with a key `≤` its own (the unique stable position). -/
def insertDesc (x : Computer × Option Int) :
    List (Computer × Option Int) → List (Computer × Option Int)
  | [] => [x]
  | y :: ys => if sortKey x < sortKey y then y :: insertDesc x ys else x :: y :: ys

/-- Model of `computer_dates.sort(key=..., reverse=True)`: the stable
descending sort by `sortKey`.  Python's Timsort is stable, and a stable
sort for a total key order is a unique function, so this insertion sort is
extensionally the same function. -/
def sortDesc : List (Computer × Option Int) → List (Computer × Option Int)
  | [] => []
  | x :: xs => insertDesc x (sortDesc xs)

/-- The removal annotation of line 204. -/
def removalReason (mac : String) : String :=
  "Duplicate MAC " ++ mac ++ ", older report date"

/-- The loop of lines 186-188: parse every member's `last_report`; an
uncaught exception aborts the whole computation. -/
def parseAll (tz : Int) : List Computer → Except PyErr (List (Computer × Option Int))
  | [] => .ok []
  | c :: cs => do
    let d ← parse_last_report tz c.last_report
    let rest ← parseAll tz cs
    pure ((c, d) :: rest)

/-- The body of the per-group loop of lines 181-206: parse, sort, and when
the group has more than one member return the keeper (`computer_dates[0]`)
and the annotated removals (`computer_dates[1:]`). -/
def resolveGroup (tz : Int) (mac : String) (cs : List Computer) :
    Except PyErr (Option (Computer × List (Computer × String))) := do
  let pairs ← parseAll tz cs
  match sortDesc pairs with
  | [] => pure Option.none
  | k :: rest =>
    if rest.isEmpty then pure Option.none
    else pure (some (k.1, rest.map (fun p => (p.1, removalReason mac))))

/-- Model of `DuplicateReporter.identify_devices_to_remove`
(lines 177-208): concatenate the removal lists of all groups in order. -/
def identify_devices_to_remove (tz : Int) :
    List (String × List Computer) → Except PyErr (List (Computer × String))
  | [] => .ok []
  | (mac, cs) :: rest => do
    let r ← resolveGroup tz mac cs
    let others ← identify_devices_to_remove tz rest
    pure ((match r with | Option.none => [] | some pr => pr.2) ++ others)

/-- The whole classification pipeline: group, then resolve. -/
def classify (tz : Int) (computers : List Computer) : Except PyErr (List (Computer × String)) :=
  identify_devices_to_remove tz (find_duplicates computers)

/-! ## `DuplicateReporter.generate_report` -/

/-- The fields of the `results` dict of lines 212-219 that the claims are
about; an entry of the keep/remove lists is the `device_info` abstraction
(the record and its parsed date). -/
structure Report where
  total_duplicate_groups : Nat
  total_duplicate_devices : Nat
  devices_to_keep : List (Computer × Option Int)
  devices_to_remove : List (Computer × Option Int)
deriving DecidableEq

/-- The per-group loop of lines 233-290: re-parse and re-sort each group;
entry `0` of the sorted list joins `devices_to_keep`, the others join
`devices_to_remove`. -/
def reportGroups (tz : Int) : List (String × List Computer) →
    Except PyErr (List (Computer × Option Int) × List (Computer × Option Int))
  | [] => .ok ([], [])
  | (_, cs) :: rest => do
    let pairs ← parseAll tz cs
    let others ← reportGroups tz rest
    match sortDesc pairs with
    | [] => pure others
    | k :: t => pure (k :: others.1, t ++ others.2)

/-- Model of `DuplicateReporter.generate_report` (lines 210-292), up to the
fields the count claims are about.  The `devices_to_remove` argument of the
Python function only gates printing and an early return that produces the
same value as the general path on empty input, so it is not a parameter
here. -/
def generate_report (tz : Int) (groups : List (String × List Computer)) :
    Except PyErr Report := do
  let kr ← reportGroups tz groups
  pure ⟨groups.length, (groups.map (fun g => g.2.length)).sum, kr.1, kr.2⟩

/-- Association-list lookup matching the first occurrence of the key, the
reading counterpart of `addToGroups` (the empty list when absent). -/
def lookupGroup (m : String) : List (String × List Computer) → List Computer
  | [] => []
  | (k, cs) :: rest => if k = m then cs else lookupGroup m rest

/-! ## Concrete device records used in counterexamples and witnesses -/

/-- A record with a separator-style MAC and no `last_report`. -/
def recA : Computer := ⟨some "AA:BB:CC:DD:EE:FF", .none, 0⟩

/-- A record with the same normalised identity as `recA` and no
`last_report`. -/
def recB : Computer := ⟨some "aabbccddeeff", .none, 1⟩

/-- A record with an Unknown (null) `last_report`. -/
def recUnknown : Computer := ⟨some "aabbccddeeff", .none, 2⟩

/-- A record whose `last_report` parses to `datetime.min`
(`0001-01-01 00:00:00`). -/
def recMinKnown : Computer := ⟨some "aabbccddeeff", .str "0001-01-01T00:00:00", 3⟩

/-- A record whose `last_report` parses to one second after `datetime.min`. -/
def recW1 : Computer := ⟨some "AA:BB:CC:DD:EE:FF", .str "0001-01-01T00:00:01", 4⟩

/-- A record with the same identity as `recW1` and an Unknown
`last_report`. -/
def recW2 : Computer := ⟨some "aabbccddeeff", .none, 5⟩

/-- A record whose MAC is too short to be a valid identity. -/
def recShortMac : Computer := ⟨some "12:34", .int 5, 6⟩

/-! ## Character lemmas -/

theorem char_toNat_ofNat (n : Nat) (h : n.isValidChar) : (Char.ofNat n).toNat = n := by
  rw [Char.ofNat, dif_pos h]
  rfl

theorem toLower_isUpper_false (c : Char) : (Char.toLower c).isUpper = false := by
  unfold Char.toLower
  by_cases h : c.toNat ≥ 65 ∧ c.toNat ≤ 90
  · rw [if_pos h]
    have hv : (c.toNat + 32).isValidChar := by
      left; omega
    have ht := char_toNat_ofNat _ hv
    unfold Char.isUpper
    have h90 : ¬ ((Char.ofNat (c.toNat + 32)).val ≤ (90 : UInt32)) := by
      rw [UInt32.le_def, BitVec.le_def]
      show ¬ ((Char.ofNat (c.toNat + 32)).toNat ≤ (90 : UInt32).toNat)
      have e : (90 : UInt32).toNat = 90 := rfl
      rw [ht, e]
      omega
    simp [h90]
  · rw [if_neg h]
    unfold Char.isUpper
    have hor : ¬ (c.val ≥ (65 : UInt32)) ∨ ¬ (c.val ≤ (90 : UInt32)) := by
      by_cases h65 : c.toNat ≥ 65
      · right
        rw [UInt32.le_def, BitVec.le_def]
        show ¬ (c.toNat ≤ (90 : UInt32).toNat)
        have e : (90 : UInt32).toNat = 90 := rfl
        rw [e]; omega
      · left
        rw [ge_iff_le, UInt32.le_def, BitVec.le_def]
        show ¬ ((65 : UInt32).toNat ≤ c.toNat)
        have e : (65 : UInt32).toNat = 65 := rfl
        rw [e]; omega
    rcases hor with h' | h' <;> simp [h']

theorem toLower_toLower (c : Char) : Char.toLower (Char.toLower c) = Char.toLower c := by
  unfold Char.toLower
  by_cases h : c.toNat ≥ 65 ∧ c.toNat ≤ 90
  · rw [if_pos h]
    have hv : (c.toNat + 32).isValidChar := by left; omega
    have ht := char_toNat_ofNat _ hv
    rw [if_neg]
    rw [ht]
    omega
  · rw [if_neg h, if_neg h]

theorem toLower_ne_of_lt {t : Char} (hlt : t.toNat < 97) {c : Char} (hc : c ≠ t) :
    Char.toLower c ≠ t := by
  unfold Char.toLower
  by_cases h : c.toNat ≥ 65 ∧ c.toNat ≤ 90
  · rw [if_pos h]
    intro hcontra
    have hv : (c.toNat + 32).isValidChar := by left; omega
    have ht := char_toNat_ofNat _ hv
    rw [hcontra] at ht
    omega
  · rw [if_neg h]; exact hc

/-! ## Trimming lemmas -/

theorem dropWhile_idem (p : Char → Bool) (l : List Char) :
    (l.dropWhile p).dropWhile p = l.dropWhile p := by
  induction l with
  | nil => rfl
  | cons c rest ih =>
    by_cases h : p c
    · rw [List.dropWhile_cons, if_pos h]
      exact ih
    · rw [List.dropWhile_cons, if_neg h, List.dropWhile_cons, if_neg h]

theorem dropTrailingWs_idem (l : List Char) :
    dropTrailingWs (dropTrailingWs l) = dropTrailingWs l := by
  induction l with
  | nil => rfl
  | cons c rest ih =>
    rw [dropTrailingWs]
    cases hr : dropTrailingWs rest with
    | nil =>
      by_cases h : c.isWhitespace
      · rw [if_pos h]; rfl
      · rw [if_neg h]
        rw [dropTrailingWs]
        rw [show dropTrailingWs ([] : List Char) = [] from rfl]
        rw [if_neg h]
    | cons x xs =>
      rw [dropTrailingWs]
      rw [hr] at ih
      rw [ih]

theorem head_dropWhile_not (p : Char → Bool) (l : List Char) {c : Char} {rest : List Char}
    (h : l.dropWhile p = c :: rest) : p c = false := by
  induction l with
  | nil => simp at h
  | cons a l ih =>
    rw [List.dropWhile_cons] at h
    by_cases ha : p a
    · rw [if_pos ha] at h; exact ih h
    · rw [if_neg ha] at h
      cases h
      exact Bool.of_not_eq_true ha

theorem dropTrailingWs_cons_not (c : Char) (l : List Char) (h : c.isWhitespace = false) :
    ∃ r, dropTrailingWs (c :: l) = c :: r := by
  rw [dropTrailingWs]
  cases hr : dropTrailingWs l with
  | nil => exact ⟨[], by rw [if_neg (by simp [h])]⟩
  | cons x xs => exact ⟨x :: xs, rfl⟩

theorem trimList_idem (l : List Char) : trimList (trimList l) = trimList l := by
  unfold trimList
  cases hA : l.dropWhile Char.isWhitespace with
  | nil => rfl
  | cons c rest =>
    have hc : c.isWhitespace = false := head_dropWhile_not _ _ hA
    obtain ⟨r, hr⟩ := dropTrailingWs_cons_not c rest hc
    rw [hr]
    rw [List.dropWhile_cons, if_neg (by simp [hc])]
    rw [← hr, dropTrailingWs_idem]

theorem mem_dropTrailingWs {x : Char} {l : List Char} (h : x ∈ dropTrailingWs l) : x ∈ l := by
  induction l with
  | nil => simp [dropTrailingWs] at h
  | cons c rest ih =>
    rw [dropTrailingWs] at h
    cases hr : dropTrailingWs rest with
    | nil =>
      rw [hr] at h
      by_cases hc : c.isWhitespace
      · rw [if_pos hc] at h; simp at h
      · rw [if_neg hc] at h
        simp at h
        simp [h]
    | cons y ys =>
      rw [hr] at h
      rcases List.mem_cons.mp h with h' | h'
      · simp [h']
      · right; exact ih (hr ▸ h')

theorem mem_trimList {x : Char} {l : List Char} (h : x ∈ trimList l) : x ∈ l := by
  unfold trimList at h
  exact (List.dropWhile_sublist Char.isWhitespace).mem (mem_dropTrailingWs h)

/-! ## Normalisation lemmas -/

theorem map_eq_self {α : Type _} {f : α → α} {l : List α} (h : ∀ x ∈ l, f x = x) :
    l.map f = l := by
  induction l with
  | nil => rfl
  | cons a t ih =>
    rw [List.map_cons, h a (List.mem_cons_self a t), ih]
    intro x hx
    exact h x (List.mem_cons_of_mem a hx)

theorem normalizeMac_chars {s : String} {c : Char} (hc : c ∈ (normalizeMac s).data) :
    c ≠ ':' ∧ c ≠ '-' ∧ ∃ d, c = Char.toLower d := by
  have h1 : c ∈ (pyLower (removeChar '-' (removeChar ':' s))).data := mem_trimList hc
  rw [pyLower] at h1
  obtain ⟨d, hd, hcd⟩ := List.mem_map.mp h1
  have hd2 : d ∈ ((removeChar ':' s).data.filter (fun x => x ≠ '-')) := hd
  have hdneq : d ≠ '-' := by
    have := (List.mem_filter.mp hd2).2
    simpa using this
  have hd3 : d ∈ (s.data.filter (fun x => x ≠ ':')) := (List.mem_filter.mp hd2).1
  have hdneq2 : d ≠ ':' := by
    have := (List.mem_filter.mp hd3).2
    simpa using this
  refine ⟨?_, ?_, ⟨d, hcd.symm⟩⟩
  · rw [← hcd]
    exact toLower_ne_of_lt (by decide) hdneq2
  · rw [← hcd]
    exact toLower_ne_of_lt (by decide) hdneq

theorem normalizeMac_fixed (s : String) : normalizeMac (normalizeMac s) = normalizeMac s := by
  have hchars := fun c hc => normalizeMac_chars (s := s) (c := c) hc
  have h1 : removeChar ':' (normalizeMac s) = normalizeMac s := by
    apply String.ext
    show (normalizeMac s).data.filter (fun x => x ≠ ':') = (normalizeMac s).data
    apply List.filter_eq_self.mpr
    intro a ha
    simpa using (hchars a ha).1
  have h2 : removeChar '-' (normalizeMac s) = normalizeMac s := by
    apply String.ext
    show (normalizeMac s).data.filter (fun x => x ≠ '-') = (normalizeMac s).data
    apply List.filter_eq_self.mpr
    intro a ha
    simpa using (hchars a ha).2.1
  have h3 : pyLower (normalizeMac s) = normalizeMac s := by
    apply String.ext
    show (normalizeMac s).data.map Char.toLower = (normalizeMac s).data
    apply map_eq_self
    intro x hx
    obtain ⟨d, hd⟩ := (hchars x hx).2.2
    rw [hd, toLower_toLower]
  have h4 : pyStrip (normalizeMac s) = normalizeMac s := by
    apply String.ext
    show trimList (normalizeMac s).data = (normalizeMac s).data
    show trimList (trimList (pyLower (removeChar '-' (removeChar ':' s))).data)
      = (normalizeMac s).data
    rw [trimList_idem]
    rfl
  rw [normalizeMac, h1, h2, h3, h4]

theorem validMac_some {s n : String} (h : validMac s = some n) :
    n = normalizeMac s ∧ n.length = 12 := by
  by_cases h1 : s = ""
  · rw [validMac, if_pos h1] at h; exact absurd h (by simp)
  · rw [validMac, if_neg h1] at h
    by_cases h2 : pyStrip s = ""
    · rw [if_pos h2] at h; exact absurd h (by simp)
    · rw [if_neg h2] at h
      by_cases h3 : (normalizeMac s).length = 12
      · rw [if_pos h3] at h
        cases h
        exact ⟨rfl, h3⟩
      · rw [if_neg h3] at h; exact absurd h (by simp)

theorem validMac_fixed {s n : String} (h : validMac s = some n) : validMac n = some n := by
  obtain ⟨hn, hlen⟩ := validMac_some h
  have hempty : n ≠ "" := by
    intro hcontra
    rw [hcontra] at hlen
    simp [String.length] at hlen
  have hstrip : pyStrip n = n := by
    apply String.ext
    show trimList n.data = n.data
    rw [hn]
    show trimList (trimList (pyLower (removeChar '-' (removeChar ':' s))).data)
      = (normalizeMac s).data
    rw [trimList_idem]
    rfl
  have hnorm : normalizeMac n = n := by rw [hn]; exact normalizeMac_fixed s
  rw [validMac, if_neg hempty, if_neg (show ¬ pyStrip n = "" by rw [hstrip]; exact hempty),
    hnorm, if_pos hlen]

/-! ## Stable descending sort lemmas -/

theorem length_insertDesc (x : Computer × Option Int) (l : List (Computer × Option Int)) :
    (insertDesc x l).length = l.length + 1 := by
  induction l with
  | nil => rfl
  | cons y ys ih =>
    rw [insertDesc]
    by_cases h : sortKey x < sortKey y
    · rw [if_pos h, List.length_cons, ih, List.length_cons]
    · rw [if_neg h, List.length_cons, List.length_cons]

theorem length_sortDesc (l : List (Computer × Option Int)) :
    (sortDesc l).length = l.length := by
  induction l with
  | nil => rfl
  | cons x xs ih => rw [sortDesc, length_insertDesc, ih, List.length_cons]

theorem perm_insertDesc (x : Computer × Option Int) (l : List (Computer × Option Int)) :
    (insertDesc x l).Perm (x :: l) := by
  induction l with
  | nil => exact List.Perm.refl _
  | cons y ys ih =>
    rw [insertDesc]
    by_cases h : sortKey x < sortKey y
    · rw [if_pos h]
      exact (ih.cons y).trans (List.Perm.swap x y ys)
    · rw [if_neg h]

theorem perm_sortDesc (l : List (Computer × Option Int)) : (sortDesc l).Perm l := by
  induction l with
  | nil => exact List.Perm.refl _
  | cons x xs ih => exact (perm_insertDesc x (sortDesc xs)).trans (ih.cons x)

theorem mem_sortDesc {p : Computer × Option Int} {l : List (Computer × Option Int)} :
    p ∈ sortDesc l ↔ p ∈ l :=
  (perm_sortDesc l).mem_iff

theorem pairwise_insertDesc {x : Computer × Option Int} {l : List (Computer × Option Int)}
    (hl : l.Pairwise (fun a b => sortKey b ≤ sortKey a)) :
    (insertDesc x l).Pairwise (fun a b => sortKey b ≤ sortKey a) := by
  induction l with
  | nil => simp [insertDesc]
  | cons y ys ih =>
    rw [insertDesc]
    rw [List.pairwise_cons] at hl
    by_cases h : sortKey x < sortKey y
    · rw [if_pos h]
      rw [List.pairwise_cons]
      constructor
      · intro a ha
        rcases List.mem_cons.mp ((perm_insertDesc x ys).mem_iff.mp ha) with rfl | ha'
        · exact le_of_lt h
        · exact hl.1 a ha'
      · exact ih hl.2
    · rw [if_neg h]
      rw [List.pairwise_cons]
      constructor
      · intro a ha
        rcases List.mem_cons.mp ha with rfl | ha'
        · exact le_of_not_lt h
        · exact le_trans (hl.1 a ha') (le_of_not_lt h)
      · exact List.pairwise_cons.mpr hl

theorem pairwise_sortDesc (l : List (Computer × Option Int)) :
    (sortDesc l).Pairwise (fun a b => sortKey b ≤ sortKey a) := by
  induction l with
  | nil => simp [sortDesc]
  | cons x xs ih => exact pairwise_insertDesc ih

theorem sortDesc_head_max {l : List (Computer × Option Int)} {k : Computer × Option Int}
    {rest : List (Computer × Option Int)} (h : sortDesc l = k :: rest) :
    ∀ p ∈ l, sortKey p ≤ sortKey k := by
  intro p hp
  have hmem : p ∈ k :: rest := h ▸ mem_sortDesc.mpr hp
  rcases List.mem_cons.mp hmem with rfl | hp'
  · exact le_refl _
  · have := pairwise_sortDesc l
    rw [h, List.pairwise_cons] at this
    exact this.1 p hp'

/-! ## `Except`-bind and `parseAll` lemmas -/

theorem bind_ok {ε α β : Type _} (x : Except ε α) (f : α → Except ε β) (b : β) :
    (x >>= f) = .ok b ↔ ∃ a, x = .ok a ∧ f a = .ok b := by
  cases x with
  | ok a => simp [Bind.bind, Except.bind]
  | error e =>
    simp only [Bind.bind, Except.bind]
    constructor
    · intro h; exact absurd h (by simp)
    · rintro ⟨a, ha, _⟩; exact absurd ha (by simp)

theorem parseAll_ok_iff {tz : Int} {cs : List Computer}
    {pairs : List (Computer × Option Int)} :
    parseAll tz cs = .ok pairs ↔
      pairs.map Prod.fst = cs ∧
      ∀ p ∈ pairs, parse_last_report tz p.1.last_report = .ok p.2 := by
  induction cs generalizing pairs with
  | nil =>
    constructor
    · intro h
      cases h
      simp
    · rintro ⟨hmap, _⟩
      have : pairs = [] := by
        cases pairs with
        | nil => rfl
        | cons a t => simp at hmap
      rw [this]; rfl
  | cons c cs ih =>
    constructor
    · intro h
      rw [parseAll, bind_ok] at h
      obtain ⟨d, hd, h⟩ := h
      rw [bind_ok] at h
      obtain ⟨rest, hrest, h⟩ := h
      have : pairs = (c, d) :: rest := by
        cases h; rfl
      subst this
      obtain ⟨hmap, hall⟩ := ih.mp hrest
      refine ⟨by simp [hmap], ?_⟩
      intro p hp
      rcases List.mem_cons.mp hp with rfl | hp'
      · exact hd
      · exact hall p hp'
    · rintro ⟨hmap, hall⟩
      cases pairs with
      | nil => simp at hmap
      | cons q rest =>
        have hq1 : q.1 = c := by
          rw [List.map_cons] at hmap
          exact (List.cons.injEq _ _ _ _ ▸ hmap).1
        have hrestmap : rest.map Prod.fst = cs := by
          rw [List.map_cons] at hmap
          exact (List.cons.injEq _ _ _ _ ▸ hmap).2
        rw [parseAll, bind_ok]
        refine ⟨q.2, ?_, ?_⟩
        · rw [← hq1]
          exact hall q (List.mem_cons_self q rest)
        · rw [bind_ok]
          refine ⟨rest, ih.mpr ⟨hrestmap, fun p hp => hall p (List.mem_cons_of_mem q hp)⟩, ?_⟩
          show Except.ok ((c, q.2) :: rest) = Except.ok (q :: rest)
          rw [← hq1]

theorem parseAll_ok_length {tz : Int} {cs : List Computer}
    {pairs : List (Computer × Option Int)} (h : parseAll tz cs = .ok pairs) :
    pairs.length = cs.length := by
  have := (parseAll_ok_iff.mp h).1
  calc pairs.length = (pairs.map Prod.fst).length := by rw [List.length_map]
    _ = cs.length := by rw [this]

/-! ## Parsed datetimes are in the `datetime` range -/

theorem localizeMicro_ok {tz x d : Int} (h : localizeMicro tz x = .ok d) :
    0 ≤ d ∧ d < dtMaxMicro := by
  rw [localizeMicro] at h
  by_cases hc : 0 ≤ epochMicro + tz * 1000000 + x ∧ epochMicro + tz * 1000000 + x < dtMaxMicro
  · rw [if_pos hc] at h
    cases h
    exact hc
  · rw [if_neg hc] at h
    exact absurd h (by simp)

theorem strptime_nonneg {s : String} {d : Int} (h : strptimeYmdHms s = some d) : 0 ≤ d := by
  rw [strptimeYmdHms] at h
  simp only [Option.bind_eq_bind, Option.bind_eq_some] at h
  obtain ⟨⟨y, r1⟩, _, h⟩ := h
  obtain ⟨r2, _, h⟩ := h
  obtain ⟨⟨m, r3⟩, _, h⟩ := h
  obtain ⟨r4, _, h⟩ := h
  obtain ⟨⟨dd, r5⟩, _, h⟩ := h
  obtain ⟨r6, _, h⟩ := h
  obtain ⟨⟨hh, r7⟩, _, h⟩ := h
  obtain ⟨r8, _, h⟩ := h
  obtain ⟨⟨mi, r9⟩, _, h⟩ := h
  obtain ⟨r10, _, h⟩ := h
  obtain ⟨⟨ss, r11⟩, _, h⟩ := h
  by_cases hc : r11 = [] ∧ 1 ≤ y ∧ dd ≤ daysInMonth y m
  · rw [if_pos hc] at h
    cases h
    exact Int.natCast_nonneg _
  · rw [if_neg hc] at h
    exact absurd h (by simp)

theorem match_strptime_ok {c : String} {d : Int}
    (h : (match strptimeYmdHms c with
          | some d' => Except.ok (some d')
          | Option.none => Except.ok Option.none) = (.ok (some d) : Except PyErr (Option Int))) :
    strptimeYmdHms c = some d := by
  cases hp : strptimeYmdHms c with
  | some d' =>
    rw [hp] at h
    simp only [Except.ok.injEq, Option.some.injEq] at h
    rw [h]
  | none =>
    rw [hp] at h
    simp at h

theorem fromtimestampFloat_ok_nonneg {tz : Int} {f : PyFloat} {d : Int}
    (h : fromtimestampFloat tz f = .ok d) : 0 ≤ d := by
  match f with
  | .nan => exact absurd h (by simp [fromtimestampFloat])
  | .inf b => exact absurd h (by simp [fromtimestampFloat])
  | .finite m e =>
    have h2 : (if mulPow10Floor m (e + 6) < -(2 ^ 63) * 1000000 ∨
          (2 ^ 63) * 1000000 ≤ mulPow10Floor m (e + 6) then
            (Except.error PyErr.overflowError : Except PyErr Int)
          else localizeMicro tz (mulPow10Floor m (e + 6))) = .ok d := h
    by_cases hb : mulPow10Floor m (e + 6) < -(2 ^ 63) * 1000000 ∨
        (2 ^ 63) * 1000000 ≤ mulPow10Floor m (e + 6)
    · rw [if_pos hb] at h2
      exact absurd h2 (by simp)
    · rw [if_neg hb] at h2
      exact (localizeMicro_ok h2).1

theorem float_path_nonneg {tz : Int} {s : String} {d : Int}
    (h : (match floatOfString s with
          | Option.none => Except.ok Option.none
          | some f =>
            match fromtimestampFloat tz f with
            | .ok d' => Except.ok (some d')
            | .error .valueError => Except.ok Option.none
            | .error .overflowError => Except.error PyErr.overflowError)
        = (.ok (some d) : Except PyErr (Option Int))) : 0 ≤ d := by
  cases hf : floatOfString s with
  | none =>
    rw [hf] at h
    simp at h
  | some f =>
    rw [hf] at h
    have h2 : (match fromtimestampFloat tz f with
        | Except.ok d' => Except.ok (some d')
        | Except.error PyErr.valueError => Except.ok Option.none
        | Except.error PyErr.overflowError => Except.error PyErr.overflowError)
        = (.ok (some d) : Except PyErr (Option Int)) := h
    cases hft : fromtimestampFloat tz f with
    | ok d' =>
      rw [hft] at h2
      simp only [Except.ok.injEq, Option.some.injEq] at h2
      exact h2 ▸ fromtimestampFloat_ok_nonneg hft
    | error e =>
      rw [hft] at h2
      cases e <;> simp at h2

theorem parse_nonneg {tz : Int} {v : PyVal} {d : Int}
    (h : parse_last_report tz v = .ok (some d)) : 0 ≤ d := by
  match v with
  | .none => exact absurd h (by rw [parse_last_report]; simp)
  | .int n =>
    rw [parse_last_report] at h
    by_cases hn : n = 0
    · rw [if_pos hn] at h
      exact absurd h (by simp)
    · rw [if_neg hn] at h
      rw [fromtimestampInt] at h
      by_cases hb : n < -(2 ^ 63) ∨ (2 ^ 63) ≤ n
      · rw [if_pos hb] at h
        exact absurd h (by simp)
      · rw [if_neg hb] at h
        cases hl : localizeMicro tz (n * 1000000) with
        | ok d' =>
          rw [hl] at h
          cases h
          exact (localizeMicro_ok hl).1
        | error e =>
          rw [hl] at h
          cases e <;> exact absurd h (by simp)
  | .str s =>
    rw [parse_last_report] at h
    by_cases hs : s = ""
    · rw [if_pos hs] at h
      exact absurd h (by simp)
    · rw [if_neg hs] at h
      by_cases hT : containsChar s 'T'
      · rw [if_pos hT] at h
        exact strptime_nonneg (match_strptime_ok h)
      · rw [if_neg hT] at h
        exact float_path_nonneg h

/-! ## Grouping lemmas -/

theorem lookupGroup_addToGroups (gs : List (String × List Computer)) (m' : String)
    (c : Computer) (m : String) :
    lookupGroup m (addToGroups gs m' c) =
      if m' = m then lookupGroup m gs ++ [c] else lookupGroup m gs := by
  induction gs with
  | nil =>
    by_cases h : m' = m
    · rw [if_pos h]
      show (if m' = m then [c] else []) = [] ++ [c]
      rw [if_pos h, List.nil_append]
    · rw [if_neg h]
      show (if m' = m then [c] else []) = []
      rw [if_neg h]
  | cons p rest ih =>
    obtain ⟨k, cs⟩ := p
    rw [addToGroups]
    by_cases hk : k = m'
    · rw [if_pos hk]
      by_cases hm : k = m
      · rw [lookupGroup, if_pos hm, lookupGroup, if_pos hm, if_pos (hk ▸ hm)]
      · rw [lookupGroup, if_neg hm, lookupGroup, if_neg hm,
          if_neg (fun hc => hm (hk.trans hc))]
    · rw [if_neg hk]
      by_cases hm : k = m
      · rw [lookupGroup, if_pos hm, lookupGroup, if_pos hm,
          if_neg (fun hc => hk (hm.trans hc.symm))]
      · rw [lookupGroup, if_neg hm, lookupGroup, if_neg hm, ih]

theorem buildGroups_lookup (computers : List Computer) (m : String) :
    lookupGroup m (buildGroups computers) =
      computers.filter (fun c => decide (macKey c = some m)) := by
  suffices hgen : ∀ (cs : List Computer) (gs : List (String × List Computer)),
      lookupGroup m (cs.foldl (fun gs c =>
        match macKey c with
        | Option.none => gs
        | some m' => addToGroups gs m' c) gs) =
      lookupGroup m gs ++ cs.filter (fun c => decide (macKey c = some m)) by
    have := hgen computers []
    rw [buildGroups, this]
    rfl
  intro cs
  induction cs with
  | nil => intro gs; simp [List.filter_nil]
  | cons c rest ih =>
    intro gs
    rw [List.foldl_cons]
    cases hk : macKey c with
    | none =>
      rw [ih gs]
      have : (c :: rest).filter (fun c => decide (macKey c = some m)) =
          rest.filter (fun c => decide (macKey c = some m)) := by
        rw [List.filter_cons]
        rw [if_neg (by simp [hk])]
      rw [this]
    | some m' =>
      rw [ih (addToGroups gs m' c), lookupGroup_addToGroups]
      by_cases hm : m' = m
      · rw [if_pos hm]
        have : (c :: rest).filter (fun c => decide (macKey c = some m)) =
            c :: rest.filter (fun c => decide (macKey c = some m)) := by
          rw [List.filter_cons, if_pos (by simp [hk, hm])]
        rw [this, List.append_assoc, List.singleton_append]
      · rw [if_neg hm]
        have : (c :: rest).filter (fun c => decide (macKey c = some m)) =
            rest.filter (fun c => decide (macKey c = some m)) := by
          rw [List.filter_cons, if_neg (by simp [hk, hm])]
        rw [this]

theorem addToGroups_keys (gs : List (String × List Computer)) (m : String) (c : Computer) :
    (addToGroups gs m c).map Prod.fst =
      if (gs.map Prod.fst).contains m then gs.map Prod.fst
      else gs.map Prod.fst ++ [m] := by
  induction gs with
  | nil => simp [addToGroups]
  | cons p rest ih =>
    obtain ⟨k, cs⟩ := p
    rw [addToGroups]
    by_cases hk : k = m
    · rw [if_pos hk]
      have : ((k, cs) :: rest).map Prod.fst = k :: rest.map Prod.fst := rfl
      rw [this, if_pos (by simp [hk])]
      rfl
    · rw [if_neg hk]
      have h1 : ((k, cs) :: addToGroups rest m c).map Prod.fst =
          k :: (addToGroups rest m c).map Prod.fst := rfl
      have h2 : ((k, cs) :: rest).map Prod.fst = k :: rest.map Prod.fst := rfl
      rw [h1, h2, ih]
      by_cases hc : (rest.map Prod.fst).contains m
      · rw [if_pos hc, if_pos (by
          rw [List.contains_cons, hc, Bool.or_true])]
      · rw [if_neg hc, if_neg (by
          rw [List.contains_cons]
          rw [Bool.or_eq_true]
          rintro (hmk | hck)
          · exact hk (eq_of_beq hmk).symm
          · exact hc hck)]
        rfl

theorem addToGroups_keys_nodup {gs : List (String × List Computer)} (m : String) (c : Computer)
    (h : (gs.map Prod.fst).Nodup) : ((addToGroups gs m c).map Prod.fst).Nodup := by
  rw [addToGroups_keys]
  by_cases hc : (gs.map Prod.fst).contains m
  · rw [if_pos hc]; exact h
  · rw [if_neg hc]
    rw [List.nodup_append]
    refine ⟨h, List.nodup_singleton m, ?_⟩
    intro a ha hb
    rw [List.mem_singleton] at hb
    subst hb
    exact hc (by simpa using ha)

theorem buildGroups_keys_nodup (computers : List Computer) :
    ((buildGroups computers).map Prod.fst).Nodup := by
  suffices hgen : ∀ (cs : List Computer) (gs : List (String × List Computer)),
      (gs.map Prod.fst).Nodup →
      ((cs.foldl (fun gs c =>
        match macKey c with
        | Option.none => gs
        | some m' => addToGroups gs m' c) gs).map Prod.fst).Nodup by
    exact hgen computers [] (by simp)
  intro cs
  induction cs with
  | nil => intro gs h; exact h
  | cons c rest ih =>
    intro gs h
    rw [List.foldl_cons]
    cases hk : macKey c with
    | none => exact ih gs h
    | some m' => exact ih (addToGroups gs m' c) (addToGroups_keys_nodup m' c h)

theorem mem_of_nodup_keys {gs : List (String × List Computer)} {m : String}
    {g : List Computer} (hmem : (m, g) ∈ gs) (hnd : (gs.map Prod.fst).Nodup) :
    g = lookupGroup m gs := by
  induction gs with
  | nil => simp at hmem
  | cons p rest ih =>
    obtain ⟨k, cs⟩ := p
    rcases List.mem_cons.mp hmem with heq | hmem'
    · cases heq
      rw [lookupGroup, if_pos rfl]
    · have hk : k ≠ m := by
        intro hc
        subst hc
        have : k ∈ rest.map Prod.fst := List.mem_map.mpr ⟨(k, g), hmem', rfl⟩
        have hnd' := List.nodup_cons.mp hnd
        exact hnd'.1 this
      rw [lookupGroup, if_neg hk]
      exact ih hmem' (List.nodup_cons.mp hnd).2

theorem find_duplicates_mem {computers : List Computer} {m : String} {g : List Computer}
    (h : (m, g) ∈ find_duplicates computers) :
    1 < g.length ∧ g = computers.filter (fun c => decide (macKey c = some m)) := by
  rw [find_duplicates] at h
  have h1 := List.mem_filter.mp h
  refine ⟨by simpa using h1.2, ?_⟩
  rw [← buildGroups_lookup]
  exact mem_of_nodup_keys h1.1 (buildGroups_keys_nodup computers)

/-! ## Resolution lemmas -/

theorem ok_bind {ε α β : Type _} (a : α) (f : α → Except ε β) :
    ((Except.ok a : Except ε α) >>= f) = f a := rfl

theorem resolveGroup_ok {tz : Int} {mac : String} {cs : List Computer}
    {pairs : List (Computer × Option Int)}
    (hpar : parseAll tz cs = .ok pairs) (hlen : 1 < cs.length) :
    ∃ kp rest, sortDesc pairs = kp :: rest ∧
      resolveGroup tz mac cs =
        .ok (some (kp.1, rest.map (fun p => (p.1, removalReason mac)))) := by
  have hslen : (sortDesc pairs).length = cs.length := by
    rw [length_sortDesc, parseAll_ok_length hpar]
  cases hsd : sortDesc pairs with
  | nil =>
    rw [hsd] at hslen
    simp at hslen
    omega
  | cons kp rest =>
    have hrest : rest.isEmpty = false := by
      cases rest with
      | nil =>
        rw [hsd] at hslen
        simp at hslen
        omega
      | cons a t => rfl
    refine ⟨kp, rest, rfl, ?_⟩
    rw [resolveGroup, hpar, ok_bind]
    rw [hsd]
    show (if rest.isEmpty then (pure Option.none : Except PyErr _)
        else pure (some (kp.1, rest.map (fun p => (p.1, removalReason mac))))) = _
    rw [hrest]
    rfl

theorem resolveGroup_small {tz : Int} {mac : String} {cs : List Computer}
    {pairs : List (Computer × Option Int)}
    (hpar : parseAll tz cs = .ok pairs) (hlen : cs.length ≤ 1) :
    resolveGroup tz mac cs = .ok Option.none := by
  have hslen : (sortDesc pairs).length = cs.length := by
    rw [length_sortDesc, parseAll_ok_length hpar]
  rw [resolveGroup, hpar, ok_bind]
  cases hsd : sortDesc pairs with
  | nil => rfl
  | cons kp rest =>
    have hrest : rest = [] := by
      rw [hsd] at hslen
      cases rest with
      | nil => rfl
      | cons a t => simp at hslen; omega
    subst hrest
    rfl

/-! ## Report-count lemmas -/

theorem reportGroups_ok {tz : Int} {groups : List (String × List Computer)}
    {ks rs : List (Computer × Option Int)}
    (h : reportGroups tz groups = .ok (ks, rs))
    (hne : ∀ g ∈ groups, 1 ≤ g.2.length) :
    ks.length = groups.length ∧
    ks.length + rs.length = (groups.map (fun g => g.2.length)).sum := by
  induction groups generalizing ks rs with
  | nil =>
    cases h
    simp
  | cons g rest ih =>
    obtain ⟨mac, cs⟩ := g
    rw [reportGroups, bind_ok] at h
    obtain ⟨pairs, hpar, h⟩ := h
    rw [bind_ok] at h
    obtain ⟨⟨ks', rs'⟩, hrest, h⟩ := h
    have hslen : (sortDesc pairs).length = cs.length := by
      rw [length_sortDesc, parseAll_ok_length hpar]
    have hcs : 1 ≤ cs.length := hne (mac, cs) (List.mem_cons_self _ _)
    cases hsd : sortDesc pairs with
    | nil =>
      rw [hsd] at hslen
      simp at hslen
      omega
    | cons k t =>
      rw [hsd] at h
      have h2 : (pure (k :: ks', t ++ rs') :
          Except PyErr (List (Computer × Option Int) × List (Computer × Option Int)))
          = .ok (ks, rs) := h
      have h3 : k :: ks' = ks ∧ t ++ rs' = rs := by
        cases h2
        exact ⟨rfl, rfl⟩
      obtain ⟨hks, hrs⟩ := h3
      have hin := ih hrest (fun g hg => hne g (List.mem_cons_of_mem _ hg))
      have htlen : t.length + 1 = cs.length := by
        rw [hsd] at hslen
        simpa using hslen
    -- lengths
      subst hks
      subst hrs
      constructor
      · simp [hin.1]
      · have hsum : ((((mac, cs) :: rest).map (fun g => g.2.length)).sum)
            = cs.length + ((rest.map (fun g => g.2.length)).sum) := by
          simp
        rw [hsum]
        have e1 : (k :: ks').length = ks'.length + 1 := by simp
        have e2 : (t ++ rs').length = t.length + rs'.length := by simp
        rw [e1, e2]
        omega

/-! ## Claim theorems -/

/-- C1: the claim (and the spec) says that for an ISO string whose cleaned
form ends in a timezone offset, only the suffix starting at the offset sign
is dropped, so `parse("2024-01-10T10:00:00+05:00")` and
`parse("2024-01-10T10:00:00-05:00")` both return the instant
`2024-01-10 10:00:00`.  The code however evaluates
`clean_date.split('+')[0].split('-')[0]`, and the second `split` truncates
at the FIRST `'-'` — the date separator — leaving only `"2024"`, which
`strptime` rejects, so both inputs come back Unknown (`None`), contradicting
the inline comment "Remove timezone info for parsing".  The third conjunct
shows the intended remainder does parse. -/
theorem c1_timezone_truncation_bug :
    parse_last_report 0 (.str "2024-01-10T10:00:00+05:00") = .ok Option.none ∧
    parse_last_report 0 (.str "2024-01-10T10:00:00-05:00") = .ok Option.none ∧
    strptimeYmdHms "2024-01-10 10:00:00" = some 63840477600000000 :=
  ⟨rfl, rfl, rfl⟩

set_option maxRecDepth 20000 in
/-- C2: the claim (and the spec) says `parse_last_report` never lets an
exception escape.  The handler is `except (ValueError, TypeError)`, but
`datetime.fromtimestamp` raises `OverflowError` for epoch values outside
the 64-bit `time_t` range, which escapes: the integer `2^63` and the string
`"1e300"` both raise `OverflowError` past the function's boundary. -/
theorem c2_overflow_escapes_bug :
    parse_last_report 0 (.int 9223372036854775808) = .error .overflowError ∧
    parse_last_report 0 (.str "1e300") = .error .overflowError :=
  ⟨rfl, rfl⟩

/-- C5 counterexample: the claim says every integer `last_report` maps to a
known Timestamp and only null/empty inputs map to Unknown; but the integer
`0` is falsy in Python, so the guard `if not last_report` returns `None`
(Unknown) for it. -/
theorem c5_zero_is_unknown_counterexample :
    parse_last_report 0 (.int 0) = .ok Option.none := rfl

/-- C5 amended: every nonzero integer that fits the platform `time_t` and
whose local instant falls inside the `datetime` year range parses to the
corresponding absolute instant (epoch plus the local offset `tz`), while
the integer `0` — like null or empty — maps to Unknown. -/
theorem c5_integer_epoch_amended (tz n : Int) (hnz : n ≠ 0)
    (hlo : -(2 ^ 63) ≤ n) (hhi : n < 2 ^ 63)
    (hmin : 0 ≤ epochMicro + tz * 1000000 + n * 1000000)
    (hmax : epochMicro + tz * 1000000 + n * 1000000 < dtMaxMicro) :
    parse_last_report tz (.int n) =
      .ok (some (epochMicro + tz * 1000000 + n * 1000000)) ∧
    parse_last_report tz (.int 0) = .ok Option.none := by
  have hft : fromtimestampInt tz n = .ok (epochMicro + tz * 1000000 + n * 1000000) := by
    rw [fromtimestampInt, if_neg (by omega)]
    rw [localizeMicro]
    rw [if_pos ⟨hmin, hmax⟩]
  constructor
  · rw [parse_last_report, if_neg hnz, hft]
  · rfl

/-- C5 amended, witness at `tz = 0`, `n = 1`. -/
theorem c5_integer_epoch_amended_witness :
    (1 : Int) ≠ 0 ∧
    parse_last_report 0 (.int 1) = .ok (some 62135596801000000) :=
  ⟨by decide,
    by
      have h := (c5_integer_epoch_amended 0 1 (by decide) (by decide) (by decide)
        (by decide) (by decide)).1
      exact h⟩

/-- C7: two records with the same normalised identity and `last_report`
null on both: the policy keeps the record that came first in input order
(`recA`) and marks the second (`recB`) for removal, with the removal reason
ending in the cited text "older report date". -/
theorem c7_all_unknown_keeps_first :
    find_duplicates [recA, recB] = [("aabbccddeeff", [recA, recB])] ∧
    resolveGroup 0 "aabbccddeeff" [recA, recB] =
      .ok (some (recA, [(recB, "Duplicate MAC aabbccddeeff, older report date")])) ∧
    identify_devices_to_remove 0 (find_duplicates [recA, recB]) =
      .ok [(recB, "Duplicate MAC aabbccddeeff, older report date")] ∧
    removalReason "aabbccddeeff" = "Duplicate MAC aabbccddeeff, " ++ "older report date" :=
  ⟨rfl, rfl, rfl, rfl⟩

/-- C3 counterexample: the claim says a member with Unknown timestamp is
never the keep member while another member has a known (parseable)
timestamp.  But `"0001-01-01T00:00:00"` parses to `datetime.min`, the very
value used as the sort key for Unknown, so in this grouper-produced group
the Unknown first record ties with the known second one and the stable sort
keeps the Unknown one. -/
theorem c3_unknown_keeps_over_known_counterexample :
    find_duplicates [recUnknown, recMinKnown] =
      [("aabbccddeeff", [recUnknown, recMinKnown])] ∧
    parse_last_report 0 recMinKnown.last_report = .ok (some dtMin) ∧
    parse_last_report 0 recUnknown.last_report = .ok Option.none ∧
    resolveGroup 0 "aabbccddeeff" [recUnknown, recMinKnown] =
      .ok (some (recUnknown,
        [(recMinKnown, "Duplicate MAC aabbccddeeff, older report date")])) :=
  ⟨rfl, rfl, rfl, rfl⟩

/-- C3 amended: for every group produced by the grouper, provided no
member's `last_report` makes the timestamp parser raise an uncaught
exception, the policy returns exactly 1 keep and N−1 removes (together a
permutation of the group), the keep member attains the maximum sort key
(its timestamp, with Unknown counting as `datetime.min`), and a member with
Unknown timestamp is the keep member only when every member's timestamp is
Unknown or equal to `datetime.min` itself. -/
theorem c3_resolution_amended {tz : Int} {input : List Computer} {m : String}
    {cs : List Computer} {pairs : List (Computer × Option Int)}
    (hmem : (m, cs) ∈ find_duplicates input)
    (hpar : parseAll tz cs = .ok pairs) :
    ∃ keep kd rems,
      resolveGroup tz m cs = .ok (some (keep, rems)) ∧
      (keep, kd) ∈ pairs ∧
      rems.length + 1 = cs.length ∧
      (keep :: rems.map Prod.fst).Perm cs ∧
      (∀ p ∈ pairs, sortKey p ≤ sortKey (keep, kd)) ∧
      (kd = Option.none → ∀ p ∈ pairs, p.2 = Option.none ∨ p.2 = some dtMin) := by
  have hlen : 1 < cs.length := (find_duplicates_mem hmem).1
  obtain ⟨kp, rest, hsd, heq⟩ := resolveGroup_ok hpar hlen
  refine ⟨kp.1, kp.2, rest.map (fun p => (p.1, removalReason m)), heq, ?_, ?_, ?_, ?_, ?_⟩
  · have : kp ∈ sortDesc pairs := by rw [hsd]; exact List.mem_cons_self _ _
    exact mem_sortDesc.mp this
  · have h1 : (sortDesc pairs).length = cs.length := by
      rw [length_sortDesc, parseAll_ok_length hpar]
    rw [hsd] at h1
    simpa using h1
  · have hmapfst : (rest.map (fun p => (p.1, removalReason m))).map Prod.fst
        = rest.map Prod.fst := by
      rw [List.map_map]
      rfl
    rw [hmapfst]
    have hperm : (sortDesc pairs).Perm pairs := perm_sortDesc pairs
    rw [hsd] at hperm
    have hp2 := hperm.map Prod.fst
    rw [(parseAll_ok_iff.mp hpar).1] at hp2
    exact hp2
  · exact sortDesc_head_max hsd
  · intro hkd p hp
    have hmax := sortDesc_head_max hsd p hp
    have hk0 : sortKey kp = dtMin := by
      rw [sortKey, hkd]
      rfl
    cases hp2 : p.2 with
    | none => exact Or.inl rfl
    | some d =>
      right
      have hnn : 0 ≤ d := by
        have hpr := (parseAll_ok_iff.mp hpar).2 p hp
        rw [hp2] at hpr
        exact parse_nonneg hpr
      have hle : d ≤ dtMin := by
        have := hmax
        rw [hk0] at this
        rw [sortKey, hp2] at this
        simpa using this
      have : d = dtMin := le_antisymm hle (by simpa [dtMin] using hnn)
      rw [this]

/-- C3 amended, witness: the group of `recW1` (known timestamp
`0001-01-01 00:00:01`) and `recW2` (Unknown), as produced by the grouper. -/
theorem c3_resolution_amended_witness :
    ("aabbccddeeff", [recW1, recW2]) ∈ find_duplicates [recW1, recW2] ∧
    parseAll 0 [recW1, recW2] = .ok [(recW1, some 1000000), (recW2, Option.none)] ∧
    ∃ keep kd rems,
      resolveGroup 0 "aabbccddeeff" [recW1, recW2] = .ok (some (keep, rems)) ∧
      (keep, kd) ∈ [(recW1, some 1000000), (recW2, Option.none)] ∧
      rems.length + 1 = ([recW1, recW2] : List Computer).length ∧
      (keep :: rems.map Prod.fst).Perm [recW1, recW2] ∧
      (∀ p ∈ [(recW1, some 1000000), (recW2, Option.none)],
        sortKey p ≤ sortKey (keep, kd)) ∧
      (kd = Option.none → ∀ p ∈ [(recW1, some 1000000), (recW2, Option.none)],
        p.2 = Option.none ∨ p.2 = some dtMin) :=
  ⟨by decide, by rfl,
    @c3_resolution_amended 0 [recW1, recW2] "aabbccddeeff" [recW1, recW2]
      [(recW1, some 1000000), (recW2, Option.none)] (by decide) (by rfl)⟩

/-- C4: every bucket returned by the grouper has at least two members, is
exactly the in-order sublist of the input whose records' grouping key is
the bucket key (so member order is input order), each member's raw hardware
address normalises to the 12-character bucket key, and records with an
invalid identity appear in no bucket. -/
theorem c4_grouper_buckets {computers : List Computer} {m : String} {g : List Computer}
    (h : (m, g) ∈ find_duplicates computers) :
    2 ≤ g.length ∧
    g = computers.filter (fun c => decide (macKey c = some m)) ∧
    (∀ c ∈ g, ∃ raw, c.system_mac_address = some raw ∧ validMac raw = some m ∧
      normalizeMac raw = m ∧ m.length = 12) ∧
    ∀ c, macKey c = Option.none → c ∉ g := by
  obtain ⟨hlen, hfil⟩ := find_duplicates_mem h
  refine ⟨hlen, hfil, ?_, ?_⟩
  · intro c hc
    rw [hfil] at hc
    have hkey : macKey c = some m := by
      have := (List.mem_filter.mp hc).2
      simpa using this
    cases hmac : c.system_mac_address with
    | none =>
      rw [macKey, hmac] at hkey
      exact absurd hkey (by simp)
    | some raw =>
      rw [macKey, hmac] at hkey
      have hv : validMac raw = some m := hkey
      obtain ⟨hn, hl⟩ := validMac_some hv
      exact ⟨raw, rfl, hv, hn.symm, hl⟩
  · intro c hnone hcg
    rw [hfil] at hcg
    have := (List.mem_filter.mp hcg).2
    rw [hnone] at this
    simp at this

/-- C4 witness: two records sharing one identity plus one with a too-short
MAC. -/
theorem c4_grouper_buckets_witness :
    ("aabbccddeeff", [recA, recB]) ∈ find_duplicates [recA, recB, recShortMac] ∧
    (2 ≤ ([recA, recB] : List Computer).length ∧
      [recA, recB] = [recA, recB, recShortMac].filter
        (fun c => decide (macKey c = some "aabbccddeeff")) ∧
      (∀ c ∈ ([recA, recB] : List Computer), ∃ raw,
        c.system_mac_address = some raw ∧ validMac raw = some "aabbccddeeff" ∧
        normalizeMac raw = "aabbccddeeff" ∧ ("aabbccddeeff" : String).length = 12) ∧
      ∀ c, macKey c = Option.none → c ∉ ([recA, recB] : List Computer)) :=
  ⟨by decide,
    @c4_grouper_buckets [recA, recB, recShortMac] "aabbccddeeff" [recA, recB] (by decide)⟩

/-- C6: the normalisation underlying the grouper yields (when it does not
signal Invalid) exactly 12 characters, none of them uppercase, and it is
idempotent: a string it has accepted normalises to itself and is accepted
again. -/
theorem c6_normalize_shape_idempotent {s n : String} (h : validMac s = some n) :
    n.length = 12 ∧ (∀ c ∈ n.data, c.isUpper = false) ∧ validMac n = some n := by
  obtain ⟨hn, hlen⟩ := validMac_some h
  refine ⟨hlen, ?_, validMac_fixed h⟩
  intro c hc
  rw [hn] at hc
  obtain ⟨d, hd⟩ := (normalizeMac_chars hc).2.2
  rw [hd]
  exact toLower_isUpper_false d

/-- C6 witness at a separator-and-uppercase raw MAC. -/
theorem c6_normalize_shape_idempotent_witness :
    validMac "AA:BB:CC:DD:EE:FF" = some "aabbccddeeff" ∧
    (("aabbccddeeff" : String).length = 12 ∧
      (∀ c ∈ ("aabbccddeeff" : String).data, c.isUpper = false) ∧
      validMac "aabbccddeeff" = some "aabbccddeeff") :=
  ⟨by decide, @c6_normalize_shape_idempotent "AA:BB:CC:DD:EE:FF" "aabbccddeeff" (by decide)⟩

/-- C8: the grouping and classification pipeline is a pure function of the
input sequence (the embedding has no other state), so two runs on the same
input sequence produce identical groupings and identical keep/remove
assignments.  The Python code's only iteration-order dependence is on
dicts, which preserve insertion order deterministically. -/
theorem c8_classification_deterministic (tz : Int) (cs1 cs2 : List Computer)
    (h : cs1 = cs2) :
    find_duplicates cs1 = find_duplicates cs2 ∧ classify tz cs1 = classify tz cs2 := by
  subst h
  exact ⟨rfl, rfl⟩

/-- C8 witness: two runs on the same two-record input. -/
theorem c8_classification_deterministic_witness :
    ([recA, recB] : List Computer) = [recA, recB] ∧
    (find_duplicates [recA, recB] = find_duplicates [recA, recB] ∧
      classify 0 [recA, recB] = classify 0 [recA, recB]) :=
  ⟨rfl, c8_classification_deterministic 0 [recA, recB] [recA, recB] rfl⟩

/-- C9 counterexample: the claim fixes the reason string as
`"Duplicate identity <id>, older report date"`, but the code annotates with
`f"Duplicate MAC {mac_address}, older report date"` — the word is `MAC`,
not `identity`. -/
theorem c9_reason_wording_counterexample :
    identify_devices_to_remove 0 (find_duplicates [recUnknown, recMinKnown]) =
      .ok [(recMinKnown, "Duplicate MAC aabbccddeeff, older report date")] ∧
    ("Duplicate MAC aabbccddeeff, older report date" : String) ≠
      "Duplicate identity aabbccddeeff, older report date" :=
  ⟨rfl, by decide⟩

set_option linter.unusedVariables false in
/-- C9 amended: in every grouper-produced duplicate group with normalised
identity `m`, every non-keep member is annotated with exactly the string
`"Duplicate MAC " ++ m ++ ", older report date"` (the group-membership
hypothesis keeps the statement about grouper output, though the annotation
holds for any resolved list). -/
theorem c9_removal_reason_amended {tz : Int} {input : List Computer} {m : String}
    {cs : List Computer} {keep : Computer} {rems : List (Computer × String)}
    (hmem : (m, cs) ∈ find_duplicates input)
    (hres : resolveGroup tz m cs = .ok (some (keep, rems))) :
    ∀ p ∈ rems, p.2 = "Duplicate MAC " ++ m ++ ", older report date" := by
  rw [resolveGroup, bind_ok] at hres
  obtain ⟨pairs, hpar, hres⟩ := hres
  cases hsd : sortDesc pairs with
  | nil =>
    rw [hsd] at hres
    have h2 : (pure Option.none :
        Except PyErr (Option (Computer × List (Computer × String))))
        = .ok (some (keep, rems)) := hres
    simp [pure, Except.pure] at h2
  | cons kp rest =>
    rw [hsd] at hres
    have h2 : (if rest.isEmpty then
        (pure Option.none : Except PyErr (Option (Computer × List (Computer × String))))
        else pure (some (kp.1, rest.map (fun p => (p.1, removalReason m)))))
        = .ok (some (keep, rems)) := hres
    by_cases hre : rest.isEmpty
    · rw [if_pos hre] at h2
      simp [pure, Except.pure] at h2
    · rw [if_neg hre] at h2
      have h3 : some (kp.1, rest.map (fun p => (p.1, removalReason m)))
          = some (keep, rems) := by
        cases h2
        rfl
      have h4 : rems = rest.map (fun p => (p.1, removalReason m)) := by
        cases h3
        rfl
      intro p hp
      rw [h4] at hp
      obtain ⟨q, _, hq⟩ := List.mem_map.mp hp
      rw [← hq]
      rfl

/-- C9 amended, witness. -/
theorem c9_removal_reason_amended_witness :
    ("aabbccddeeff", [recA, recB]) ∈ find_duplicates [recA, recB] ∧
    resolveGroup 0 "aabbccddeeff" [recA, recB] =
      .ok (some (recA, [(recB, "Duplicate MAC aabbccddeeff, older report date")])) ∧
    ∀ p ∈ [(recB, "Duplicate MAC aabbccddeeff, older report date")],
      (p : Computer × String).2 = "Duplicate MAC " ++ "aabbccddeeff" ++ ", older report date" :=
  ⟨by decide, by rfl,
    @c9_removal_reason_amended 0 [recA, recB] "aabbccddeeff" [recA, recB] recA
      [(recB, "Duplicate MAC aabbccddeeff, older report date")] (by decide) (by rfl)⟩

/-- C10: whenever `generate_report` produces a report from duplicate groups
of size ≥ 2, the number of keep entries equals `total_duplicate_groups` and
keeps plus removes equal `total_duplicate_devices`. -/
theorem c10_report_count_invariant {tz : Int} {groups : List (String × List Computer)}
    {r : Report}
    (hsize : ∀ g ∈ groups, 2 ≤ g.2.length)
    (h : generate_report tz groups = .ok r) :
    r.devices_to_keep.length = r.total_duplicate_groups ∧
    r.devices_to_keep.length + r.devices_to_remove.length = r.total_duplicate_devices := by
  rw [generate_report, bind_ok] at h
  obtain ⟨⟨ks, rs⟩, hrg, h⟩ := h
  have h2 : (pure (⟨groups.length, (groups.map (fun g => g.2.length)).sum, ks, rs⟩ : Report)
      : Except PyErr Report) = .ok r := h
  have h3 : (⟨groups.length, (groups.map (fun g => g.2.length)).sum, ks, rs⟩ : Report) = r := by
    cases h2
    rfl
  subst h3
  exact reportGroups_ok hrg (fun g hg => le_trans (by omega) (hsize g hg))

/-- C10 witness: one group of two records. -/
theorem c10_report_count_invariant_witness :
    (∀ g ∈ [("aabbccddeeff", [recA, recB])], 2 ≤ (g : String × List Computer).2.length) ∧
    generate_report 0 [("aabbccddeeff", [recA, recB])] =
      .ok ⟨1, 2, [(recA, Option.none)], [(recB, Option.none)]⟩ ∧
    (([(recA, Option.none)] : List (Computer × Option Int)).length = 1 ∧
      ([(recA, Option.none)] : List (Computer × Option Int)).length +
        ([(recB, Option.none)] : List (Computer × Option Int)).length = 2) :=
  ⟨by decide, by rfl,
    @c10_report_count_invariant 0 [("aabbccddeeff", [recA, recB])]
      ⟨1, 2, [(recA, Option.none)], [(recB, Option.none)]⟩ (by decide) (by rfl)⟩

end Watchman
